import Mathlib

/-!
Verification development for `RhinoLoadSTL.py`, an STL mesh loader.

The script reads a directory of candidate files, classifies each as
not-STL / ASCII STL / binary STL (`is_binary`), decodes binary files with a
`read_triangle` loop that appends into four process-wide accumulator lists
(`normals`, `points`, `triangles`, `bytecount`), decodes ASCII files line by
line on the `vertex` / `endloop` tokens (`meshAdder`), builds a combined
mesh per file, and resets the accumulators after each binary file.

Embedding conventions:
- A byte stream is the list of bytes not yet read; `f.read(l)` takes the
  first `l` elements.  `struct.unpack` failure (short read) is `none`.
- An IEEE-754 binary32 value is represented by its 32-bit pattern (a `Nat`
  below `2 ^ 32` for well-formed input); the claims under study depend only
  on buffer shapes, ordering and bit-level determinism, never on float
  arithmetic.
- Python `float(x)` on the ASCII path is modelled as exact rational parsing
  of plain decimal literals (IEEE rounding, `inf`, `nan` and underscore
  separators are not modelled; no claim exercises them).
- Uncaught Python exceptions (struct.error escaping `read_length`,
  ValueError and IndexError on ASCII vertex lines) are modelled as `none`.
- The host mesh type `Rhino.Geometry.Mesh` is an external library; its
  append semantics is modelled from the spec (see `meshAppend`).
-/

namespace RhinoLoadSTL

/-- Last piece of a character list split at dots (empty when the name ends
in a dot), accumulating the current piece reversed. -/
def lastSplitPiece : List Char → List Char → List Char
  | [], acc => acc.reverse
  | c :: cs, acc =>
    if c = '.' then lastSplitPiece cs [] else lastSplitPiece cs (c :: acc)

/-- Python `name.split('.')[-1]`: the suffix after the last dot (the whole
name when there is no dot). -/
def extOf (name : String) : String := String.mk (lastSplitPiece name.data [])

/-- Blocks of a byte stream as Python file iteration yields them: split
after each newline byte (10), the separator kept with its block. -/
def byteLines : List Nat → List (List Nat)
  | [] => []
  | b :: bs =>
    if b = 10 then [b] :: byteLines bs
    else
      match byteLines bs with
      | [] => [[b]]
      | l :: ls => (b :: l) :: ls

/-- Source `is_binary` (lines 13-25): a non-`stl` extension returns Python
`None` (modelled `none`) before the file is opened; otherwise the file is
scanned block by block for a NUL byte. -/
def is_binary (name : String) (contents : List Nat) : Option Bool :=
  if extOf name ≠ "stl" then none
  else some ((byteLines contents).any (fun block => block.any (fun x => x == 0)))

/-- Classification outcome of the format sniffer (spec name `SniffResult`):
`None` / `False` / `True` from `is_binary` mapped to the three cases. -/
inductive SniffResult where
  | NotStl
  | Ascii
  | Binary
deriving DecidableEq

/-- Spec contract `classify(path)`, derived from `is_binary`. -/
def classify (name : String) (contents : List Nat) : SniffResult :=
  match is_binary name contents with
  | none => SniffResult.NotStl
  | some true => SniffResult.Binary
  | some false => SniffResult.Ascii

/-- Little-endian value of a byte list. -/
def leNat : List Nat → Nat
  | [] => 0
  | b :: bs => b + 256 * leNat bs

/-- Signed 16-bit value of a bit pattern (struct code `h`). -/
def signed16 (v : Nat) : Int := if v < 32768 then (v : Int) else (v : Int) - 65536

/-- Signed 32-bit value of a bit pattern (struct code `i`). -/
def signed32 (v : Nat) : Int :=
  if v < 2147483648 then (v : Int) else (v : Int) - 4294967296

/-- Source `unpack(f, sig, l)` (lines 33-35): `f.read(l)` followed by
`st.unpack`, which raises struct.error unless exactly `l` bytes arrived. -/
def unpack (l : Nat) (f : List Nat) : Option (List Nat × List Nat) :=
  if l ≤ f.length then some (f.take l, f.drop l) else none

/-- Bit pattern of one binary32 value. -/
abbrev F32 := Nat

/-- One decoded 3-float group. -/
abbrev Vec3 := F32 × F32 × F32

/-- Struct signature `"<3f"` over 12 bytes: three little-endian binary32
bit patterns. -/
def unpack3f (f : List Nat) : Option (Vec3 × List Nat) :=
  match unpack 12 f with
  | none => none
  | some (b, rest) =>
    some ((leNat (b.take 4), leNat ((b.drop 4).take 4), leNat (b.drop 8)), rest)

/-- Struct signature `"<h"` over 2 bytes: one little-endian signed 16-bit
integer. -/
def unpackh (f : List Nat) : Option (Int × List Nat) :=
  match unpack 2 f with
  | none => none
  | some (b, rest) => some (signed16 (leNat b), rest)

/-- The four process-wide accumulator lists of the binary decoder
(source lines 27-30).  This is the FacetBuffer of the spec: entry `k` is
facet `k`'s normal, its three points, its index triple and its attribute
byte count. -/
structure DecState where
  normals : List Vec3
  points : List Vec3
  triangles : List (Nat × Nat × Nat)
  bytecount : List Int
deriving DecidableEq

/-- The accumulators as the script initialises (and later resets) them. -/
def DecState.empty : DecState := ⟨[], [], [], []⟩

/-- Source `read_triangle(f)` (lines 37-50): five unpacks, then the appends.
All five reads precede every append, so a facet whose read fails
contributes nothing to any buffer. -/
def read_triangle (f : List Nat) (st : DecState) : Option (List Nat × DecState) :=
  match unpack3f f with
  | none => none
  | some (n, f1) =>
    match unpack3f f1 with
    | none => none
    | some (p1, f2) =>
      match unpack3f f2 with
      | none => none
      | some (p2, f3) =>
        match unpack3f f3 with
        | none => none
        | some (p3, f4) =>
          match unpackh f4 with
          | none => none
          | some (b, f5) =>
            some (f5,
              ⟨st.normals ++ [n], st.points ++ [p1, p2, p3],
               st.triangles ++
                 [(st.points.length, st.points.length + 1, st.points.length + 2)],
               st.bytecount ++ [b]⟩)

/-- Source `read_length(f)` (lines 53-55): `st.unpack("@i", f.read(4))`,
native byte order (little-endian on the host).  A short read raises past
`meshBinaryAdder` (there is no handler around this call). -/
def read_length (f : List Nat) : Option (Int × List Nat) :=
  match unpack 4 f with
  | none => none
  | some (b, rest) => some (signed32 (leNat b), rest)

/-- Source `read_header(f)` (lines 57-58): `f.seek(f.tell()+80)`; seeking
past the end is permitted and later reads simply fail. -/
def read_header (f : List Nat) : List Nat := f.drop 80

/-- Source `while True: read_triangle(f)` under `try/except` (lines 90-94):
iterate until a read fails, swallowing the failure.  Each successful
iteration consumes 50 bytes, so `f.length` bounds the iteration count; the
recursion is driven by that bound while the stop condition is exactly the
read failure, as in the source. -/
def decodeLoopAux : Nat → List Nat → DecState → DecState
  | 0, _, st => st
  | Nat.succ fuel, f, st =>
    match read_triangle f st with
    | none => st
    | some (f1, st1) => decodeLoopAux fuel f1 st1

/-- The facet-reading loop of `meshBinaryAdder`, started with enough fuel
for every possible iteration. -/
def decodeLoop (f : List Nat) (st : DecState) : DecState := decodeLoopAux f.length f st

/-- Decode phase of `meshBinaryAdder` (lines 87-94): skip the 80-byte
header, read the 4-byte count (value discarded), then loop `read_triangle`
until failure.  A failure of `read_length` itself escapes uncaught
(`none`). -/
def decodeBinary (data : List Nat) (st : DecState) : Option DecState :=
  match read_length (read_header data) with
  | none => none
  | some (_, f) => some (decodeLoop f st)

/-- An indexed mesh: vertex buffer plus triples of indices into it (spec
data model `IndexedMesh`). -/
structure IndexedMesh (α : Type) where
  vertexBuffer : List α
  triangleBuffer : List (Nat × Nat × Nat)
deriving DecidableEq

/-- A fresh `Rhino.Geometry.Mesh()`. -/
def emptyMesh {α : Type} : IndexedMesh α := ⟨[], []⟩

/-- Modelled from the spec: `MESH.Append(temp_mesh)` of the external
`Rhino.Geometry.Mesh` API, per spec section 4.4 — the appended mesh's
vertices are concatenated and its face indices are offset by the number of
vertices already present, so each appended facet mesh keeps a fresh local
index space. -/
def meshAppend {α : Type} (M t : IndexedMesh α) : IndexedMesh α :=
  ⟨M.vertexBuffer ++ t.vertexBuffer,
   M.triangleBuffer ++ t.triangleBuffer.map
     (fun tr => (M.vertexBuffer.length + tr.1,
                 M.vertexBuffer.length + tr.2.1,
                 M.vertexBuffer.length + tr.2.2))⟩

/-- Host call `temp_mesh.Vertices.Add(x, y, z)`: append one vertex. -/
def addVertex {α : Type} (m : IndexedMesh α) (v : α) : IndexedMesh α :=
  ⟨m.vertexBuffer ++ [v], m.triangleBuffer⟩

/-- Host call `temp_mesh.Faces.AddFace(0, 1, 2)`: append the literal face
`(0, 1, 2)` with no range guard. -/
def addFace012 {α : Type} (m : IndexedMesh α) : IndexedMesh α :=
  ⟨m.vertexBuffer, m.triangleBuffer ++ [(0, 1, 2)]⟩

/-- Source mesh construction of `meshBinaryAdder` (lines 99-109): for each
facet, three rounds of `Vertices.Add` / `Faces.AddFace(0,1,2)` /
`MESH.Append(temp_mesh)` on the same accumulating `temp_mesh`, which is
reset only after the third round.  The three point lookups are hoisted to
the front: an out-of-range index raises IndexError (`none`) and aborts the
whole run either way. -/
def buildLoop (points : List Vec3) :
    List (Nat × Nat × Nat) → IndexedMesh Vec3 → Option (IndexedMesh Vec3)
  | [], M => some M
  | t :: ts, M =>
    match points.get? t.1, points.get? t.2.1, points.get? t.2.2 with
    | some p1, some p2, some p3 =>
      let temp1 := addFace012 (addVertex emptyMesh p1)
      let M1 := meshAppend M temp1
      let temp2 := addFace012 (addVertex temp1 p2)
      let M2 := meshAppend M1 temp2
      let temp3 := addFace012 (addVertex temp2 p3)
      let M3 := meshAppend M2 temp3
      buildLoop points ts M3
    | _, _, _ => none

/-- Mesh construction of `meshBinaryAdder` over the decoded accumulators:
`for n in range(len(triangles))` with lookups `points[triangles[n][i]]`. -/
def buildBinaryMesh (st : DecState) : Option (IndexedMesh Vec3) :=
  buildLoop st.points st.triangles emptyMesh

/-- Face triples one facet contributes to the combined mesh when its first
appended vertex lands at offset `o`: the accumulating temp mesh is appended
after one, two and three vertices, so its `(0, 1, 2)` faces land at offsets
`o`, `o + 1` (twice) and `o + 3` (three times). -/
def facetFaces (o : Nat) : List (Nat × Nat × Nat) :=
  [(o, o + 1, o + 2),
   (o + 1, o + 2, o + 3), (o + 1, o + 2, o + 3),
   (o + 3, o + 4, o + 5), (o + 3, o + 4, o + 5), (o + 3, o + 4, o + 5)]

/-- Source `meshBinaryAdder(file_)` (lines 86-115): open, decode, then the
(post-decode) extension check, then mesh building.  Returns the
accumulator state it leaves behind and the mesh handed to the host sink
(`none` mesh for the early return on a non-`stl` name). -/
def meshBinaryAdder (name : String) (data : List Nat) (st : DecState) :
    Option (DecState × Option (IndexedMesh Vec3)) :=
  match decodeBinary data st with
  | none => none
  | some st1 =>
    if extOf name ≠ "stl" then some (st1, none)
    else
      match buildBinaryMesh st1 with
      | none => none
      | some m => some (st1, some m)

/-- ASCII-path vertex: three exact rationals parsed from the text. -/
abbrev VecQ := ℚ × ℚ × ℚ

/-- Substring test on character lists (Python `pat in s`). -/
def containsSub (pat : List Char) : List Char → Bool
  | [] => pat.isEmpty
  | c :: s => pat.isPrefixOf (c :: s) || containsSub pat s

/-- Python `pat in line` on strings. -/
def strContains (s pat : String) : Bool := containsSub pat.data s.data

/-- Python `s.replace(pat, '')` for a nonempty pattern: remove every
non-overlapping occurrence, scanning left to right.  Each step consumes at
least one character, so the input length bounds the recursion. -/
def removeAllAux (pat : List Char) : Nat → List Char → List Char
  | 0, s => s
  | Nat.succ _, [] => []
  | Nat.succ fuel, c :: s =>
    if pat.isPrefixOf (c :: s) then removeAllAux pat fuel (List.drop (pat.length - 1) s)
    else c :: removeAllAux pat fuel s

/-- Occurrence removal started with enough fuel for every step. -/
def removeAll (pat s : List Char) : List Char := removeAllAux pat s.length s

/-- Python `line.replace(pat, '')` on strings. -/
def pyReplace (s pat : String) : String := String.mk (removeAll pat.data s.data)

/-- Token collection of Python `q.split()`: maximal runs of non-whitespace
characters, empty pieces never produced. -/
def wsTokens : List Char → List Char → List String
  | [], acc => if acc.isEmpty then [] else [String.mk acc.reverse]
  | c :: cs, acc =>
    if c.isWhitespace then
      if acc.isEmpty then wsTokens cs [] else String.mk acc.reverse :: wsTokens cs []
    else wsTokens cs (c :: acc)

/-- Python `q.split()`: split on whitespace runs, dropping empty pieces. -/
def pySplit (s : String) : List String := wsTokens s.data []

/-- Optional leading sign of a numeric literal. -/
def parseSign : List Char → Int × List Char
  | '+' :: t => (1, t)
  | '-' :: t => (-1, t)
  | t => (1, t)

/-- Value of a digit run. -/
def digitsVal (ds : List Char) : Nat :=
  ds.foldl (fun a c => 10 * a + (c.toNat - 48)) 0

/-- Python `float(x)` on plain decimal literals, exactly: optional sign,
integer digits, optional fraction, optional exponent; anything else raises
ValueError (`none`).  The literal's exact value
`sign * (I.F) * 10 ^ (expSign * E)` is assembled as one normalized
fraction. -/
def pyFloat? (s : String) : Option ℚ :=
  let (sgn, cs) := parseSign s.data
  let (ip, cs1) := cs.span Char.isDigit
  let (fp, cs2) :=
    match cs1 with
    | '.' :: t =>
      let (d, r) := t.span Char.isDigit
      (d, r)
    | _ => (([] : List Char), cs1)
  if ip.isEmpty && fp.isEmpty then none
  else
    let mantNum : Int := sgn * ((digitsVal ip * 10 ^ fp.length + digitsVal fp : Nat) : Int)
    let mantDen : Nat := 10 ^ fp.length
    match cs2 with
    | [] => some (mkRat mantNum mantDen)
    | e :: t =>
      if e = 'e' || e = 'E' then
        let (esgn, t1) := parseSign t
        let (ed, t2) := t1.span Char.isDigit
        if ed.isEmpty || !t2.isEmpty then none
        else if esgn = 1 then some (mkRat (mantNum * ((10 ^ digitsVal ed : Nat) : Int)) mantDen)
        else some (mkRat mantNum (mantDen * 10 ^ digitsVal ed))
      else none

/-- ASCII vertex line handling (source lines 69-73): strip the token
`vertex` and the newline, split, parse every piece as a float (ValueError
aborts), and take the first three (IndexError aborts when fewer). -/
def parseVertexLine (line : String) : Option VecQ :=
  let q := pyReplace line ("vertex")
  let q1 := pyReplace q ("\n")
  match (pySplit q1).mapM pyFloat? with
  | some (a :: b :: c :: _) => some (a, b, c)
  | _ => none

/-- Line loop of `meshAdder` (source lines 67-78): a line containing
`vertex` adds a parsed vertex to the pending mesh; a line containing
`endloop` adds face `(0, 1, 2)` to it, appends it into the combined mesh
and starts a fresh pending mesh.  `none` is an uncaught exception. -/
def meshAdderLoop :
    List String → IndexedMesh VecQ → IndexedMesh VecQ → Option (IndexedMesh VecQ)
  | [], _, M => some M
  | line :: rest, temp, M =>
    match (if strContains line ("vertex") then
             (parseVertexLine line).map (fun v => addVertex temp v)
           else some temp) with
    | none => none
    | some temp1 =>
      if strContains line ("endloop") then
        meshAdderLoop rest emptyMesh (meshAppend M (addFace012 temp1))
      else
        meshAdderLoop rest temp1 M

/-- Outcome of the ASCII path for one file. -/
inductive AsciiOut where
  | skipped
  | mesh (m : IndexedMesh VecQ)
  | err
deriving DecidableEq

/-- Source `meshAdder(file_)` (lines 61-84): early return on a non-`stl`
name, otherwise the line loop; the finished combined mesh goes to the host
sink. -/
def meshAdder (name : String) (lines : List String) : AsciiOut :=
  if extOf name ≠ "stl" then AsciiOut.skipped
  else
    match meshAdderLoop lines emptyMesh emptyMesh with
    | none => AsciiOut.err
    | some M => AsciiOut.mesh M

/-- Text lines of a byte stream as Python text-mode iteration yields them:
split after each newline, the newline kept with its line. -/
def charLines : List Char → List Char → List String
  | [], acc => if acc.isEmpty then [] else [String.mk acc.reverse]
  | c :: cs, acc =>
    if c = '\n' then String.mk (c :: acc).reverse :: charLines cs []
    else charLines cs (c :: acc)

/-- Bytes of a file viewed as text lines. -/
def linesOf (contents : List Nat) : List String :=
  charLines (contents.map Char.ofNat) []

/-- Structural well-formedness of an ASCII input: every line containing
`endloop` has at least three vertex lines accumulated since the previous
`endloop` (argument: vertices currently pending). -/
def asciiWF : List String → Nat → Bool
  | [], _ => true
  | line :: rest, p =>
    let p1 := if strContains line ("vertex") then p + 1 else p
    if strContains line ("endloop") then decide (3 ≤ p1) && asciiWF rest 0
    else asciiWF rest p1

/-- File-handle events. -/
inductive FEvent where
  | opened
  | closed
deriving DecidableEq

/-- A trace closes every handle it opens. -/
def closesOpened (t : List FEvent) : Bool :=
  decide (t.count FEvent.opened = t.count FEvent.closed)

/-- Handle events of `is_binary`: the non-`stl` early return happens before
any open; otherwise the `with` block closes the handle on every exit path,
including the early `return True`. -/
def is_binary_trace (name : String) (_contents : List Nat) : List FEvent :=
  if extOf name ≠ "stl" then [] else [FEvent.opened, FEvent.closed]

/-- Handle events of `meshAdder`: the extension check precedes the open;
the `with` block closes the handle on every exit path, including unwinding
on a vertex-line parse error. -/
def meshAdder_trace (name : String) (_lines : List String) : List FEvent :=
  if extOf name ≠ "stl" then [] else [FEvent.opened, FEvent.closed]

/-- Handle events of `meshBinaryAdder` (line 87): a bare `open` with no
`close` call anywhere in the function, on any path. -/
def meshBinaryAdder_trace (_name : String) (_data : List Nat) : List FEvent :=
  [FEvent.opened]

/-- One directory entry handed to the batch loop. -/
structure FileEntry where
  name : String
  data : List Nat

/-- What the driver emits to the host sink for one file. -/
inductive FileResult where
  | binMesh (m : IndexedMesh Vec3)
  | binSkipped
  | asciiMesh (m : IndexedMesh VecQ)
  | asciiSkipped
deriving DecidableEq

/-- One file processed from freshly reset accumulators. -/
def processOne (e : FileEntry) : Option FileResult :=
  match is_binary e.name e.data with
  | some true =>
    match meshBinaryAdder e.name e.data DecState.empty with
    | none => none
    | some (_, some m) => some (FileResult.binMesh m)
    | some (_, none) => some FileResult.binSkipped
  | _ =>
    match meshAdder e.name (linesOf e.data) with
    | AsciiOut.err => none
    | AsciiOut.skipped => some FileResult.asciiSkipped
    | AsciiOut.mesh m => some (FileResult.asciiMesh m)

/-- Every file processed independently, each from fresh accumulators. -/
def perFile : List FileEntry → Option (List FileResult)
  | [] => some []
  | e :: rest =>
    match processOne e with
    | none => none
    | some r => (perFile rest).map (fun rs => r :: rs)

/-- Source batch loop (lines 119-125): sniff each entry; on a truthy
`is_binary` run `meshBinaryAdder` threading the accumulator state, then
reset all four accumulators; otherwise run `meshAdder`.  An uncaught
exception aborts the whole script (`none`). -/
def batch : List FileEntry → DecState → Option (List FileResult)
  | [], _ => some []
  | e :: rest, st =>
    match is_binary e.name e.data with
    | some true =>
      match meshBinaryAdder e.name e.data st with
      | none => none
      | some (_, some m) =>
        (batch rest DecState.empty).map (fun rs => FileResult.binMesh m :: rs)
      | some (_, none) =>
        (batch rest DecState.empty).map (fun rs => FileResult.binSkipped :: rs)
    | _ =>
      match meshAdder e.name (linesOf e.data) with
      | AsciiOut.err => none
      | AsciiOut.skipped => (batch rest st).map (fun rs => FileResult.asciiSkipped :: rs)
      | AsciiOut.mesh m => (batch rest st).map (fun rs => FileResult.asciiMesh m :: rs)

/-- Range-validity of a mesh: every triangle index points into the vertex
buffer (spec section 3 invariant). -/
def meshValid {α : Type} (m : IndexedMesh α) : Prop :=
  ∀ t ∈ m.triangleBuffer,
    t.1 < m.vertexBuffer.length ∧ t.2.1 < m.vertexBuffer.length ∧
      t.2.2 < m.vertexBuffer.length

instance {α : Type} (m : IndexedMesh α) : Decidable (meshValid m) :=
  List.decidableBAll _ m.triangleBuffer

theorem unpack_of_le {l : Nat} {f : List Nat} (h : l ≤ f.length) :
    unpack l f = some (f.take l, f.drop l) := by
  unfold unpack; rw [if_pos h]

theorem unpack_none {l : Nat} {f : List Nat} (h : f.length < l) :
    unpack l f = none := by
  unfold unpack; rw [if_neg (by omega)]

theorem unpack_eq_some {l : Nat} {f : List Nat} {p : List Nat × List Nat}
    (h : unpack l f = some p) : l ≤ f.length ∧ p = (f.take l, f.drop l) := by
  unfold unpack at h
  split_ifs at h with hl
  exact ⟨hl, (Option.some.inj h).symm⟩

theorem unpack3f_of_le {f : List Nat} (h : 12 ≤ f.length) :
    ∃ v, unpack3f f = some (v, f.drop 12) := by
  unfold unpack3f
  rw [unpack_of_le h]
  exact ⟨_, rfl⟩

theorem unpack3f_eq_some {f : List Nat} {p : Vec3 × List Nat}
    (h : unpack3f f = some p) : 12 ≤ f.length ∧ p.2 = f.drop 12 := by
  unfold unpack3f at h
  cases hu : unpack 12 f with
  | none => rw [hu] at h; simp at h
  | some q =>
    rw [hu] at h
    obtain ⟨hl, hq⟩ := unpack_eq_some hu
    obtain ⟨b, rest⟩ := q
    cases h
    simp only [Prod.mk.injEq] at hq
    exact ⟨hl, hq.2⟩

theorem unpackh_of_le {f : List Nat} (h : 2 ≤ f.length) :
    ∃ b, unpackh f = some (b, f.drop 2) := by
  unfold unpackh
  rw [unpack_of_le h]
  exact ⟨_, rfl⟩

theorem unpackh_eq_some {f : List Nat} {p : Int × List Nat}
    (h : unpackh f = some p) : 2 ≤ f.length ∧ p.2 = f.drop 2 := by
  unfold unpackh at h
  cases hu : unpack 2 f with
  | none => rw [hu] at h; simp at h
  | some q =>
    rw [hu] at h
    obtain ⟨hl, hq⟩ := unpack_eq_some hu
    obtain ⟨b, rest⟩ := q
    cases h
    simp only [Prod.mk.injEq] at hq
    exact ⟨hl, hq.2⟩

theorem read_triangle_eq_some {f : List Nat} {st : DecState} {p : List Nat × DecState}
    (h : read_triangle f st = some p) : 50 ≤ f.length ∧ p.1 = f.drop 50 := by
  unfold read_triangle at h
  cases h1 : unpack3f f with
  | none => rw [h1] at h; simp at h
  | some q1 =>
    rw [h1] at h
    dsimp only at h
    obtain ⟨l1, r1⟩ := unpack3f_eq_some h1
    obtain ⟨n, f1⟩ := q1
    simp only at r1
    subst r1
    cases h2 : unpack3f (f.drop 12) with
    | none => rw [h2] at h; simp at h
    | some q2 =>
      rw [h2] at h
      dsimp only at h
      obtain ⟨l2, r2⟩ := unpack3f_eq_some h2
      obtain ⟨p1, f2⟩ := q2
      simp only at r2
      subst r2
      cases h3 : unpack3f ((f.drop 12).drop 12) with
      | none => rw [h3] at h; simp at h
      | some q3 =>
        rw [h3] at h
        dsimp only at h
        obtain ⟨l3, r3⟩ := unpack3f_eq_some h3
        obtain ⟨p2, f3⟩ := q3
        simp only at r3
        subst r3
        cases h4 : unpack3f (((f.drop 12).drop 12).drop 12) with
        | none => rw [h4] at h; simp at h
        | some q4 =>
          rw [h4] at h
          dsimp only at h
          obtain ⟨l4, r4⟩ := unpack3f_eq_some h4
          obtain ⟨p3, f4⟩ := q4
          simp only at r4
          subst r4
          cases h5 : unpackh ((((f.drop 12).drop 12).drop 12).drop 12) with
          | none => rw [h5] at h; simp at h
          | some q5 =>
            rw [h5] at h
            dsimp only at h
            obtain ⟨l5, r5⟩ := unpackh_eq_some h5
            obtain ⟨b, f5⟩ := q5
            simp only at r5
            subst r5
            cases h
            simp only [List.length_drop] at l2 l3 l4 l5
            refine ⟨by omega, ?_⟩
            simp only [List.drop_drop]

theorem read_triangle_of_le {f : List Nat} {st : DecState} (h : 50 ≤ f.length) :
    ∃ n p1 p2 p3 b, read_triangle f st = some (f.drop 50,
      ⟨st.normals ++ [n], st.points ++ [p1, p2, p3],
       st.triangles ++ [(st.points.length, st.points.length + 1, st.points.length + 2)],
       st.bytecount ++ [b]⟩) := by
  obtain ⟨n, hn⟩ := unpack3f_of_le (f := f) (by omega)
  obtain ⟨v1, h1⟩ := unpack3f_of_le (f := f.drop 12)
    (by simp only [List.length_drop]; omega)
  obtain ⟨v2, h2⟩ := unpack3f_of_le (f := (f.drop 12).drop 12)
    (by simp only [List.length_drop]; omega)
  obtain ⟨v3, h3⟩ := unpack3f_of_le (f := ((f.drop 12).drop 12).drop 12)
    (by simp only [List.length_drop]; omega)
  obtain ⟨b, hb⟩ := unpackh_of_le (f := (((f.drop 12).drop 12).drop 12).drop 12)
    (by simp only [List.length_drop]; omega)
  refine ⟨n, v1, v2, v3, b, ?_⟩
  unfold read_triangle
  rw [hn]
  dsimp only
  rw [h1]
  dsimp only
  rw [h2]
  dsimp only
  rw [h3]
  dsimp only
  rw [hb]
  dsimp only
  simp only [List.drop_drop]

theorem read_triangle_none {f : List Nat} {st : DecState} (h : f.length < 50) :
    read_triangle f st = none := by
  cases hr : read_triangle f st with
  | none => rfl
  | some p => exact absurd (read_triangle_eq_some hr).1 (by omega)

theorem decodeLoopAux_spec (fuel : Nat) :
    ∀ (f : List Nat) (st : DecState), f.length ≤ fuel →
      (decodeLoopAux fuel f st).normals.length = st.normals.length + f.length / 50 ∧
      (decodeLoopAux fuel f st).points.length = st.points.length + 3 * (f.length / 50) ∧
      (decodeLoopAux fuel f st).bytecount.length = st.bytecount.length + f.length / 50 ∧
      (decodeLoopAux fuel f st).triangles = st.triangles ++
        (List.range (f.length / 50)).map
          (fun k => (st.points.length + 3 * k, st.points.length + 3 * k + 1,
                     st.points.length + 3 * k + 2)) := by
  induction fuel with
  | zero =>
    intro f st hf
    have h0 : f.length = 0 := by omega
    simp [decodeLoopAux, h0]
  | succ k ih =>
    intro f st hf
    by_cases h50 : 50 ≤ f.length
    · obtain ⟨n, p1, p2, p3, b, hrt⟩ := @read_triangle_of_le f st h50
      have hdiv : f.length / 50 = (f.length - 50) / 50 + 1 :=
        Nat.div_eq_sub_div (by norm_num) h50
      have hlen : (f.drop 50).length ≤ k := by
        simp only [List.length_drop]; omega
      obtain ⟨e1, e2, e3, e4⟩ := ih (f.drop 50)
        ⟨st.normals ++ [n], st.points ++ [p1, p2, p3],
         st.triangles ++ [(st.points.length, st.points.length + 1, st.points.length + 2)],
         st.bytecount ++ [b]⟩ hlen
      simp only [decodeLoopAux, hrt]
      simp only [List.length_append, List.length_drop, List.length_cons,
        List.length_nil] at e1 e2 e3 e4 ⊢
      refine ⟨by omega, by omega, by omega, ?_⟩
      rw [e4, hdiv, List.range_succ_eq_map, List.map_cons, List.map_map,
        List.append_assoc, List.singleton_append]
      congr 1
      congr 1
      apply List.map_congr_left
      intro a _
      simp only [Function.comp_apply, Prod.mk.injEq]
      omega
    · have hnone := @read_triangle_none f st (by omega)
      have h0 : f.length / 50 = 0 := Nat.div_eq_of_lt (by omega)
      simp [decodeLoopAux, hnone, h0]

theorem decodeLoop_spec (f : List Nat) (st : DecState) :
    (decodeLoop f st).normals.length = st.normals.length + f.length / 50 ∧
    (decodeLoop f st).points.length = st.points.length + 3 * (f.length / 50) ∧
    (decodeLoop f st).bytecount.length = st.bytecount.length + f.length / 50 ∧
    (decodeLoop f st).triangles = st.triangles ++
      (List.range (f.length / 50)).map
        (fun k => (st.points.length + 3 * k, st.points.length + 3 * k + 1,
                   st.points.length + 3 * k + 2)) :=
  decodeLoopAux_spec f.length f st le_rfl

theorem empty_normals : DecState.empty.normals = [] := rfl

theorem empty_points : DecState.empty.points = [] := rfl

theorem empty_triangles : DecState.empty.triangles = [] := rfl

theorem empty_bytecount : DecState.empty.bytecount = [] := rfl

theorem decodeBinary_of_le {data : List Nat} {st : DecState} (h : 84 ≤ data.length) :
    decodeBinary data st = some (decodeLoop (data.drop 84) st) := by
  unfold decodeBinary read_length read_header
  rw [unpack_of_le (l := 4) (by simp only [List.length_drop]; omega)]
  simp only [List.drop_drop]

theorem decodeBinary_short {data : List Nat} {st : DecState} (h : data.length < 84) :
    decodeBinary data st = none := by
  unfold decodeBinary read_length read_header
  rw [unpack_none (by simp only [List.length_drop]; omega)]

theorem bind_map_succ {α : Type} (f : Nat → List α) (l : List Nat) :
    (l.map Nat.succ).flatMap f = l.flatMap (fun k => f (k + 1)) := by
  induction l with
  | nil => rfl
  | cons a l ih => simp only [List.map_cons, List.flatMap_cons, ih]

theorem bind_congr_on {α : Type} (l : List Nat) (f g : Nat → List α)
    (h : ∀ a ∈ l, f a = g a) : l.flatMap f = l.flatMap g := by
  induction l with
  | nil => rfl
  | cons a l ih =>
    simp only [List.flatMap_cons, h a (by simp),
      ih (fun b hb => h b (by simp [hb]))]

theorem range_bind_shift {α : Type} (f : Nat → List α) (n : Nat) :
    (List.range (n + 1)).flatMap f = f 0 ++ (List.range n).flatMap (fun k => f (k + 1)) := by
  rw [List.range_succ_eq_map, List.flatMap_cons, bind_map_succ]

theorem buildLoop_spec (pts : List Vec3) :
    ∀ (ts : List (Nat × Nat × Nat)) (M : IndexedMesh Vec3),
      (∀ t ∈ ts, t.1 < pts.length ∧ t.2.1 < pts.length ∧ t.2.2 < pts.length) →
      ∃ m, buildLoop pts ts M = some m ∧
        m.vertexBuffer.length = M.vertexBuffer.length + 6 * ts.length ∧
        m.triangleBuffer = M.triangleBuffer ++ (List.range ts.length).flatMap
          (fun k => facetFaces (M.vertexBuffer.length + 6 * k)) := by
  intro ts
  induction ts with
  | nil => intro M _; exact ⟨M, rfl, by simp, by simp⟩
  | cons t ts ih =>
    intro M hb
    obtain ⟨h1, h2, h3⟩ := hb t (by simp)
    have hstep : buildLoop pts (t :: ts) M =
        buildLoop pts ts
          (meshAppend (meshAppend (meshAppend M
            (addFace012 (addVertex emptyMesh (pts.get ⟨t.1, h1⟩))))
            (addFace012 (addVertex (addFace012 (addVertex emptyMesh (pts.get ⟨t.1, h1⟩)))
              (pts.get ⟨t.2.1, h2⟩))))
            (addFace012 (addVertex (addFace012 (addVertex (addFace012 (addVertex emptyMesh
              (pts.get ⟨t.1, h1⟩))) (pts.get ⟨t.2.1, h2⟩))) (pts.get ⟨t.2.2, h3⟩)))) := by
      simp only [buildLoop, List.get?_eq_get h1, List.get?_eq_get h2, List.get?_eq_get h3]
    obtain ⟨m, hm, hl, htb⟩ := ih
      (meshAppend (meshAppend (meshAppend M
        (addFace012 (addVertex emptyMesh (pts.get ⟨t.1, h1⟩))))
        (addFace012 (addVertex (addFace012 (addVertex emptyMesh (pts.get ⟨t.1, h1⟩)))
          (pts.get ⟨t.2.1, h2⟩))))
        (addFace012 (addVertex (addFace012 (addVertex (addFace012 (addVertex emptyMesh
          (pts.get ⟨t.1, h1⟩))) (pts.get ⟨t.2.1, h2⟩))) (pts.get ⟨t.2.2, h3⟩))))
      (fun u hu => hb u (List.mem_cons_of_mem t hu))
    refine ⟨m, hstep ▸ hm, ?_, ?_⟩
    · simp only [meshAppend, addVertex, addFace012, emptyMesh, List.length_append,
        List.length_cons, List.length_nil] at hl
      simp only [List.length_cons]
      omega
    · rw [htb]
      simp only [meshAppend, addVertex, addFace012, emptyMesh, List.map_cons,
        List.map_nil, List.length_append, List.length_cons, List.length_nil,
        List.nil_append, List.append_assoc, List.cons_append, List.length_cons]
      rw [range_bind_shift]
      simp only [facetFaces, List.cons_append, List.nil_append, List.length_cons,
        Nat.mul_zero, Nat.add_zero]
      refine congrArg (fun x => M.triangleBuffer ++ x) ?_
      simp only [List.cons.injEq, Prod.mk.injEq]
      refine ⟨trivial, trivial, trivial, trivial, trivial, trivial, ?_⟩
      apply bind_congr_on
      intro a _
      simp only [List.cons.injEq, Prod.mk.injEq, and_true]
      omega

theorem buildLoop_valid (pts : List Vec3) :
    ∀ (ts : List (Nat × Nat × Nat)) (M m : IndexedMesh Vec3),
      meshValid M → buildLoop pts ts M = some m → meshValid m := by
  intro ts
  induction ts with
  | nil =>
    intro M m hM h
    simp only [buildLoop] at h
    cases h
    exact hM
  | cons t ts ih =>
    intro M m hM h
    simp only [buildLoop] at h
    cases hg1 : pts.get? t.1 with
    | none => rw [hg1] at h; simp at h
    | some p1 =>
      cases hg2 : pts.get? t.2.1 with
      | none => rw [hg1, hg2] at h; simp at h
      | some p2 =>
        cases hg3 : pts.get? t.2.2 with
        | none => rw [hg1, hg2, hg3] at h; simp at h
        | some p3 =>
          rw [hg1, hg2, hg3] at h
          dsimp only at h
          refine ih _ m ?_ h
          intro tr htr
          simp only [meshAppend, addVertex, addFace012, emptyMesh, List.map_cons,
            List.map_nil, List.append_assoc, List.cons_append, List.nil_append,
            List.mem_append, List.mem_cons, List.mem_singleton, List.length_append,
            List.length_cons, List.length_nil, List.not_mem_nil, or_false] at htr ⊢
          rcases htr with hA | hB | hB | hB | hB | hB | hB
          · obtain ⟨c1, c2, c3⟩ := hM tr hA
            exact ⟨by omega, by omega, by omega⟩
          all_goals
            subst hB
            dsimp only
            exact ⟨by omega, by omega, by omega⟩

theorem meshAdderLoop_vertex {line : String} {v : VecQ} {temp M : IndexedMesh VecQ}
    {rest : List String} (hv : strContains line ("vertex") = true)
    (he : strContains line ("endloop") = false)
    (hp : parseVertexLine line = some v) :
    meshAdderLoop (line :: rest) temp M = meshAdderLoop rest (addVertex temp v) M := by
  simp [meshAdderLoop, hv, he, hp]

theorem meshAdderLoop_endloop {line : String} {temp M : IndexedMesh VecQ}
    {rest : List String} (hv : strContains line ("vertex") = false)
    (he : strContains line ("endloop") = true) :
    meshAdderLoop (line :: rest) temp M =
      meshAdderLoop rest emptyMesh (meshAppend M (addFace012 temp)) := by
  simp [meshAdderLoop, hv, he]

theorem meshAdderLoop_count :
    ∀ (lines : List String) (temp M m : IndexedMesh VecQ),
      temp.triangleBuffer = [] → meshAdderLoop lines temp M = some m →
      m.triangleBuffer.length =
        M.triangleBuffer.length + lines.countP (fun l => strContains l ("endloop")) := by
  intro lines
  induction lines with
  | nil =>
    intro temp M m _ h
    simp only [meshAdderLoop] at h
    cases h
    simp
  | cons line rest ih =>
    intro temp M m htb h
    cases hv : strContains line ("vertex") with
    | false =>
      cases he : strContains line ("endloop") with
      | false =>
        simp only [meshAdderLoop, hv, he, Bool.false_eq_true, if_false] at h
        have := ih temp M m htb h
        simp [List.countP_cons, he, this]
      | true =>
        simp only [meshAdderLoop, hv, he, Bool.false_eq_true, if_false, if_true] at h
        have := ih emptyMesh _ m rfl h
        simp only [meshAppend, addFace012, htb, List.nil_append, List.map_cons,
          List.map_nil, List.length_append, List.length_cons, List.length_nil] at this
        simp [List.countP_cons, he]
        omega
    | true =>
      cases hp : parseVertexLine line with
      | none =>
        simp [meshAdderLoop, hv, hp] at h
      | some v =>
        cases he : strContains line ("endloop") with
        | false =>
          rw [meshAdderLoop_vertex hv he hp] at h
          have := ih (addVertex temp v) M m (by simp [addVertex, htb]) h
          simp [List.countP_cons, he, this]
        | true =>
          simp only [meshAdderLoop, hv, he, hp, if_true, Option.map_some] at h
          have := ih emptyMesh _ m rfl h
          simp only [meshAppend, addFace012, addVertex, htb, List.nil_append,
            List.map_cons, List.map_nil, List.length_append, List.length_cons,
            List.length_nil] at this
          simp [List.countP_cons, he]
          omega

theorem meshAdderLoop_valid :
    ∀ (lines : List String) (temp M : IndexedMesh VecQ) (p : Nat) (m : IndexedMesh VecQ),
      asciiWF lines p = true → temp.vertexBuffer.length = p → temp.triangleBuffer = [] →
      meshValid M → meshAdderLoop lines temp M = some m → meshValid m := by
  intro lines
  induction lines with
  | nil =>
    intro temp M p m _ _ _ hM h
    simp only [meshAdderLoop] at h
    cases h
    exact hM
  | cons line rest ih =>
    intro temp M p m hwf hvl htb hM h
    cases hv : strContains line ("vertex") with
    | false =>
      cases he : strContains line ("endloop") with
      | false =>
        simp only [asciiWF, hv, he, Bool.false_eq_true, if_false] at hwf
        simp only [meshAdderLoop, hv, he, Bool.false_eq_true, if_false] at h
        exact ih temp M p m hwf hvl htb hM h
      | true =>
        simp only [asciiWF, hv, he, Bool.false_eq_true, if_false, if_true,
          Bool.and_eq_true, decide_eq_true_eq] at hwf
        simp only [meshAdderLoop, hv, he, Bool.false_eq_true, if_false, if_true] at h
        refine ih emptyMesh _ 0 m hwf.2 rfl rfl ?_ h
        intro tr htr
        simp only [meshAppend, addFace012, htb, List.nil_append, List.map_cons,
          List.map_nil, List.mem_append, List.mem_singleton, List.length_append] at htr ⊢
        rcases htr with hA | hB
        · obtain ⟨c1, c2, c3⟩ := hM tr hA
          refine ⟨by omega, by omega, by omega⟩
        · subst hB
          dsimp only
          have h3p : 3 ≤ temp.vertexBuffer.length := by omega
          refine ⟨by omega, by omega, by omega⟩
    | true =>
      cases hp : parseVertexLine line with
      | none =>
        simp [meshAdderLoop, hv, hp] at h
      | some v =>
        cases he : strContains line ("endloop") with
        | false =>
          simp only [asciiWF, hv, he, Bool.false_eq_true, if_false, if_true] at hwf
          rw [meshAdderLoop_vertex hv he hp] at h
          exact ih (addVertex temp v) M (p + 1) m hwf
            (by simp [addVertex, hvl]) (by simp [addVertex, htb]) hM h
        | true =>
          simp only [asciiWF, hv, he, if_true, Bool.and_eq_true, decide_eq_true_eq] at hwf
          simp only [meshAdderLoop, hv, he, hp, if_true, Option.map_some] at h
          refine ih emptyMesh _ 0 m hwf.2 rfl rfl ?_ h
          intro tr htr
          simp only [meshAppend, addFace012, addVertex, htb, List.nil_append,
            List.map_cons, List.map_nil, List.mem_append, List.mem_singleton,
            List.length_append, List.length_cons, List.length_nil] at htr ⊢
          rcases htr with hA | hB
          · obtain ⟨c1, c2, c3⟩ := hM tr hA
            refine ⟨by omega, by omega, by omega⟩
          · subst hB
            dsimp only
            have h3p : 3 ≤ p + 1 := hwf.1
            refine ⟨by omega, by omega, by omega⟩

theorem byteLines_ne_nil : ∀ {bs : List Nat}, byteLines bs = [] → bs = [] := by
  intro bs h
  cases bs with
  | nil => rfl
  | cons b t =>
    simp only [byteLines] at h
    split_ifs at h
    rcases hbt : byteLines t with _ | ⟨l, ls⟩ <;> rw [hbt] at h <;> simp at h

theorem byteLines_any (bs : List Nat) :
    ((byteLines bs).any fun block => block.any fun x => x == 0) =
      bs.any (fun x => x == 0) := by
  induction bs with
  | nil => rfl
  | cons b t ih =>
    simp only [byteLines]
    split_ifs with h10
    · subst h10
      simp [ih]
    · cases hbt : byteLines t with
      | nil =>
        have ht : t = [] := byteLines_ne_nil hbt
        subst ht
        simp
      | cons l ls =>
        rw [hbt] at ih
        dsimp only
        simp only [List.any_cons] at ih ⊢
        rw [Bool.or_assoc, ih]

/-- Claim C1 counterexample: on the one-facet 134-byte file the faithfully
built combined mesh has 6 vertices and 6 faces — source lines 99-109 append
the accumulating temp mesh three times per facet — so the claimed shape of
3N vertices and N triangles `(3k, 3k+1, 3k+2)` is false at N = 1. -/
theorem binary_complete_decode_cex :
    ∃ st m, decodeBinary (List.replicate 134 0) DecState.empty = some st ∧
      buildBinaryMesh st = some m ∧
      m.vertexBuffer.length = 6 ∧ m.triangleBuffer.length = 6 ∧
      ¬ (m.vertexBuffer.length = 3 * 1 ∧ m.triangleBuffer =
          (List.range 1).map (fun k => (3 * k, 3 * k + 1, 3 * k + 2))) :=
  ⟨⟨[(0, 0, 0)], [(0, 0, 0), (0, 0, 0), (0, 0, 0)], [(0, 1, 2)], [0]⟩,
   ⟨[(0, 0, 0), (0, 0, 0), (0, 0, 0), (0, 0, 0), (0, 0, 0), (0, 0, 0)],
    [(0, 1, 2), (1, 2, 3), (1, 2, 3), (3, 4, 5), (3, 4, 5), (3, 4, 5)]⟩,
   by decide, by decide, by decide, by decide, by decide⟩

/-- Claim C1 amended: a binary STL file with N complete facets and no
truncation decodes to a FacetBuffer with exactly N entries (all four
accumulator buffers), facet k's index triple being `(3k, 3k+1, 3k+2)`; the
built combined mesh, because the accumulating temp mesh is appended three
times per facet, has exactly 6N vertices and 6N faces, facet k contributing
the faces `facetFaces (6k)`.  The vertex count is 6N for every input, so
coordinate-identical vertices across facets stay distinct entries — no
deduplication. -/
theorem binary_complete_decode_amended (data : List Nat) (N : Nat)
    (h : data.length = 84 + 50 * N) :
    ∃ st m, decodeBinary data DecState.empty = some st ∧
      st.normals.length = N ∧ st.points.length = 3 * N ∧ st.bytecount.length = N ∧
      st.triangles = (List.range N).map (fun k => (3 * k, 3 * k + 1, 3 * k + 2)) ∧
      buildBinaryMesh st = some m ∧
      m.vertexBuffer.length = 6 * N ∧
      m.triangleBuffer = (List.range N).flatMap (fun k => facetFaces (6 * k)) := by
  rw [decodeBinary_of_le (by omega)]
  obtain ⟨e1, e2, e3, e4⟩ := decodeLoop_spec (data.drop 84) DecState.empty
  have hdivN : (data.drop 84).length / 50 = N := by
    simp only [List.length_drop]; omega
  simp only [empty_normals, empty_points, empty_triangles, empty_bytecount,
    List.length_nil, Nat.zero_add, List.nil_append, hdivN] at e1 e2 e3 e4
  have e4n : (decodeLoop (data.drop 84) DecState.empty).triangles =
      (List.range N).map (fun k => (3 * k, 3 * k + 1, 3 * k + 2)) := by
    rw [e4]
  have hbnd : ∀ t ∈ (decodeLoop (data.drop 84) DecState.empty).triangles,
      t.1 < (decodeLoop (data.drop 84) DecState.empty).points.length ∧
      t.2.1 < (decodeLoop (data.drop 84) DecState.empty).points.length ∧
      t.2.2 < (decodeLoop (data.drop 84) DecState.empty).points.length := by
    intro t ht
    rw [e4n] at ht
    simp only [List.mem_map, List.mem_range] at ht
    obtain ⟨k, hk, rfl⟩ := ht
    rw [e2]
    dsimp only
    omega
  obtain ⟨m, hm, hml, hmt⟩ := buildLoop_spec
    (decodeLoop (data.drop 84) DecState.empty).points
    (decodeLoop (data.drop 84) DecState.empty).triangles emptyMesh hbnd
  have hts : (decodeLoop (data.drop 84) DecState.empty).triangles.length = N := by
    rw [e4n]; simp
  refine ⟨_, m, rfl, e1, e2, e3, e4n, hm, ?_, ?_⟩
  · rw [hml, hts]; simp [emptyMesh]
  · rw [hmt, hts]
    simp only [emptyMesh, List.length_nil, List.nil_append, Nat.zero_add]

/-- Claim C1 amended witness: a concrete 134-byte all-zero file, one
facet. -/
theorem binary_complete_decode_amended_instance :
    ∃ st m, decodeBinary (List.replicate 134 0) DecState.empty = some st ∧
      st.normals.length = 1 ∧ st.points.length = 3 * 1 ∧ st.bytecount.length = 1 ∧
      st.triangles = (List.range 1).map (fun k => (3 * k, 3 * k + 1, 3 * k + 2)) ∧
      buildBinaryMesh st = some m ∧
      m.vertexBuffer.length = 6 * 1 ∧
      m.triangleBuffer = (List.range 1).flatMap (fun k => facetFaces (6 * k)) :=
  binary_complete_decode_amended (List.replicate 134 0) 1 (by simp)

/-- Claim C2: a binary file with B payload bytes after the 80-byte header
and 4-byte count yields, with no error escaping, a FacetBuffer of exactly
`B / 50` facets; the facet whose field read fails contributes to none of
the four buffers (all four lengths agree). -/
theorem binary_truncation (data : List Nat) (B : Nat) (h : data.length = 84 + B) :
    ∃ st, decodeBinary data DecState.empty = some st ∧
      st.normals.length = B / 50 ∧ st.points.length = 3 * (B / 50) ∧
      st.triangles.length = B / 50 ∧ st.bytecount.length = B / 50 := by
  rw [decodeBinary_of_le (by omega)]
  obtain ⟨e1, e2, e3, e4⟩ := decodeLoop_spec (data.drop 84) DecState.empty
  have hlen : (data.drop 84).length = B := by
    simp only [List.length_drop]; omega
  refine ⟨_, rfl, ?_, ?_, ?_, ?_⟩
  · rw [e1, hlen]; simp [empty_normals]
  · rw [e2, hlen]; simp [empty_points]
  · rw [e4]; simp [empty_triangles, empty_points, hlen]
  · rw [e3, hlen]; simp [empty_bytecount]

/-- Claim C2 witness: a 159-byte all-zero file, one complete facet plus 25
stray bytes. -/
theorem binary_truncation_instance :
    ∃ st, decodeBinary (List.replicate 159 0) DecState.empty = some st ∧
      st.normals.length = 75 / 50 ∧ st.points.length = 3 * (75 / 50) ∧
      st.triangles.length = 75 / 50 ∧ st.bytecount.length = 75 / 50 :=
  binary_truncation (List.replicate 159 0) 75 (by simp)

/-- Claim C3: `classify` answers `NotStl` exactly when the suffix after the
last dot is not the literal `stl`, in which case the file is never opened
(empty handle trace, result independent of the contents); on `stl` names it
answers `Binary` exactly when the file holds a NUL byte and `Ascii`
otherwise. -/
theorem classification (name : String) (contents : List Nat) :
    (classify name contents = SniffResult.NotStl ↔ extOf name ≠ "stl") ∧
    (extOf name ≠ "stl" →
      is_binary_trace name contents = [] ∧
      ∀ c2 : List Nat, classify name c2 = classify name contents) ∧
    (extOf name = "stl" →
      (classify name contents = SniffResult.Binary ↔ 0 ∈ contents) ∧
      (classify name contents = SniffResult.Ascii ↔ 0 ∉ contents)) := by
  by_cases hx : extOf name = "stl"
  · have hany := byteLines_any contents
    cases hb : (byteLines contents).any (fun block => block.any fun x => x == 0) with
    | true =>
      have h0 : contents.any (fun x => x == 0) = true := by rw [← hany, hb]
      simp only [List.any_eq_true, beq_iff_eq] at h0
      obtain ⟨x, hxm, hxe⟩ := h0
      subst hxe
      refine ⟨?_, ?_, ?_⟩
      · simp [classify, is_binary, hx, hb]
      · intro hc; exact absurd hx hc
      · intro _
        constructor
        · simp [classify, is_binary, hx, hb, hxm]
        · simp [classify, is_binary, hx, hb, hxm]
    | false =>
      have h0 : contents.any (fun x => x == 0) = false := by rw [← hany, hb]
      have hnm : 0 ∉ contents := by
        intro hc
        have h1 : contents.any (fun x => x == 0) = true :=
          List.any_eq_true.mpr ⟨0, hc, rfl⟩
        rw [h0] at h1
        cases h1
      refine ⟨?_, ?_, ?_⟩
      · simp [classify, is_binary, hx, hb]
      · intro hc; exact absurd hx hc
      · intro _
        constructor
        · simp [classify, is_binary, hx, hb, hnm]
        · simp [classify, is_binary, hx, hb, hnm]
  · refine ⟨?_, ?_, ?_⟩
    · simp [classify, is_binary, hx]
    · intro _
      refine ⟨?_, ?_⟩
      · simp [is_binary_trace, hx]
      · intro c2; simp [classify, is_binary, hx]
    · intro hc; exact absurd hc hx

/-- Claim C3 witness: `readme.txt` is classified `NotStl`. -/
theorem classification_instance :
    classify ("readme.txt") [] = SniffResult.NotStl :=
  (classification ("readme.txt") []).1.mpr (by decide)

/-- Claim C4: on the ASCII path a `vertex` line appends one parsed vertex
to the pending accumulator; an `endloop` line whose accumulator holds
exactly the three vertices a, b, c emits exactly one facet mesh with those
vertices in order and the single face `(0, 1, 2)` (normals and attribute
counts are absent on this path — the text is never parsed for them) and
resets the accumulator; and the concrete one-facet ASCII file yields
exactly the mesh with vertices `(1,2,3), (4,5,6), (7,8,9)`. -/
theorem ascii_facet_emission :
    (∀ (line : String) (v : VecQ) (temp M : IndexedMesh VecQ) (rest : List String),
      strContains line ("vertex") = true → strContains line ("endloop") = false →
      parseVertexLine line = some v →
      meshAdderLoop (line :: rest) temp M = meshAdderLoop rest (addVertex temp v) M) ∧
    (∀ (line : String) (a b c : VecQ) (temp M : IndexedMesh VecQ) (rest : List String),
      strContains line ("vertex") = false → strContains line ("endloop") = true →
      temp.vertexBuffer = [a, b, c] → temp.triangleBuffer = [] →
      meshAdderLoop (line :: rest) temp M =
        meshAdderLoop rest emptyMesh (meshAppend M ⟨[a, b, c], [(0, 1, 2)]⟩)) ∧
    meshAdder ("f.stl") ["solid x", "facet normal 0 0 0", "outer loop",
      "vertex 1 2 3", "vertex 4 5 6", "vertex 7 8 9",
      "endloop", "endfacet", "endsolid x"] =
      AsciiOut.mesh ⟨[((1 : ℚ), (2 : ℚ), (3 : ℚ)), (4, 5, 6), (7, 8, 9)], [(0, 1, 2)]⟩ := by
  refine ⟨?_, ?_, ?_⟩
  · intro line v temp M rest hv he hp
    exact meshAdderLoop_vertex hv he hp
  · intro line a b c temp M rest hv he hvb htb
    rw [meshAdderLoop_endloop hv he]
    obtain ⟨tv, tt⟩ := temp
    simp only at hvb htb
    subst hvb
    subst htb
    rfl
  · decide

/-- Claim C4 witness: the vertex-line step applied to `vertex 1 2 3`. -/
theorem ascii_facet_emission_instance :
    meshAdderLoop ["vertex 1 2 3"] emptyMesh emptyMesh =
      meshAdderLoop [] (addVertex emptyMesh ((1 : ℚ), (2 : ℚ), (3 : ℚ))) emptyMesh :=
  ascii_facet_emission.1 ("vertex 1 2 3") ((1 : ℚ), (2 : ℚ), (3 : ℚ))
    emptyMesh emptyMesh [] (by decide) (by decide) (by decide)

/-- Claim C5: the 4-byte count field is read but never used — two binary
files identical except for bytes 80..83 decode to identical FacetBuffers
(the whole decode result agrees, so no mismatch is ever reported). -/
theorem count_field_unused (d1 d2 : List Nat) (st : DecState)
    (hlen : d1.length = d2.length) (_hh : d1.take 80 = d2.take 80)
    (ht : d1.drop 84 = d2.drop 84) :
    decodeBinary d1 st = decodeBinary d2 st := by
  by_cases h : 84 ≤ d1.length
  · rw [decodeBinary_of_le h, decodeBinary_of_le (by omega), ht]
  · rw [decodeBinary_short (by omega), decodeBinary_short (by omega)]

/-- Claim C5 witness: an 84-zero-byte file against one whose count field is
`[1, 2, 3, 4]`. -/
theorem count_field_unused_instance :
    decodeBinary (List.replicate 84 0) DecState.empty =
      decodeBinary (List.replicate 80 0 ++ [1, 2, 3, 4]) DecState.empty :=
  count_field_unused (List.replicate 84 0) (List.replicate 80 0 ++ [1, 2, 3, 4])
    DecState.empty (by decide) (by decide) (by decide)

/-- Claim C6 counterexample: the ASCII path violates the index invariant —
an `endloop` line with an empty accumulator still emits face `(0, 1, 2)`
into a mesh with zero vertices, so an index reaches past the vertex
buffer. -/
theorem index_invariant_cex :
    meshAdder ("a.stl") ["endloop"] =
      AsciiOut.mesh ⟨([] : List VecQ), [(0, 1, 2)]⟩ ∧
    ¬ meshValid (⟨([] : List VecQ), [(0, 1, 2)]⟩ : IndexedMesh VecQ) := by
  constructor
  · decide
  · decide

/-- Claim C6 amended: every mesh built by the binary path satisfies the
index invariant, and an ASCII-path mesh satisfies it provided every
`endloop` line has at least three vertices pending (`asciiWF`); without
that proviso the invariant fails (see the counterexample). -/
theorem index_invariant_amended :
    (∀ (st : DecState) (m : IndexedMesh Vec3),
      buildBinaryMesh st = some m → meshValid m) ∧
    (∀ (name : String) (lines : List String) (m : IndexedMesh VecQ),
      asciiWF lines 0 = true → meshAdder name lines = AsciiOut.mesh m →
      meshValid m) := by
  constructor
  · intro st m h
    refine buildLoop_valid st.points st.triangles emptyMesh m ?_ h
    intro t ht
    exact absurd ht (List.not_mem_nil t)
  · intro name lines m hwf h
    unfold meshAdder at h
    by_cases hx : extOf name ≠ "stl"
    · rw [if_pos hx] at h
      exact AsciiOut.noConfusion h
    · rw [if_neg hx] at h
      cases hml : meshAdderLoop lines emptyMesh emptyMesh with
      | none =>
        rw [hml] at h
        exact AsciiOut.noConfusion h
      | some M =>
        rw [hml] at h
        dsimp only at h
        cases h
        exact meshAdderLoop_valid lines emptyMesh emptyMesh 0 _ hwf rfl rfl
          (fun t ht => absurd ht (List.not_mem_nil t)) hml

/-- Claim C6 amended witness: the one-facet ASCII scenario's mesh is
valid. -/
theorem index_invariant_amended_instance :
    meshValid (⟨[((1 : ℚ), (2 : ℚ), (3 : ℚ)), (4, 5, 6), (7, 8, 9)],
      [(0, 1, 2)]⟩ : IndexedMesh VecQ) :=
  index_invariant_amended.2 ("f.stl")
    ["solid x", "facet normal 0 0 0", "outer loop",
     "vertex 1 2 3", "vertex 4 5 6", "vertex 7 8 9",
     "endloop", "endfacet", "endsolid x"] _ (by decide) (by decide)

/-- Claim C7: starting from the script's freshly initialised accumulators,
the batch loop — which resets `normals`, `points`, `triangles`,
`bytecount` after every binary file — produces exactly the results of
processing every file independently from fresh accumulators: no facet of
an earlier file leaks into a later file's mesh. -/
theorem batch_reset_no_leak (files : List FileEntry) :
    batch files DecState.empty = perFile files := by
  induction files with
  | nil => rfl
  | cons e rest ih =>
    simp only [batch, perFile, processOne]
    cases hb : is_binary e.name e.data with
    | none =>
      dsimp only
      cases hm : meshAdder e.name (linesOf e.data) <;> simp [ih]
    | some b =>
      cases b with
      | false =>
        dsimp only
        cases hm : meshAdder e.name (linesOf e.data) <;> simp [ih]
      | true =>
        dsimp only
        cases hm : meshBinaryAdder e.name e.data DecState.empty with
        | none => rfl
        | some r =>
          obtain ⟨st1, mq⟩ := r
          cases mq <;> simp [ih]

/-- Claim C8: processing the same binary file twice in a row through the
batch loop (the driver's reset runs between them) emits the same result
for both copies, and the decoder itself is deterministic on equal inputs
from equal (freshly reset) accumulator states. -/
theorem decode_idempotent (name : String) (data : List Nat)
    (hb : is_binary name data = some true) :
    (∀ rs, batch [⟨name, data⟩, ⟨name, data⟩] DecState.empty = some rs →
      ∃ r, rs = [r, r]) ∧
    (∀ s1 m1 s2 m2, meshBinaryAdder name data DecState.empty = some (s1, m1) →
      meshBinaryAdder name data DecState.empty = some (s2, m2) →
      s1 = s2 ∧ m1 = m2) := by
  constructor
  · intro rs h
    simp only [batch] at h
    rw [hb] at h
    dsimp only at h
    cases hm : meshBinaryAdder name data DecState.empty with
    | none => rw [hm] at h; simp at h
    | some r =>
      obtain ⟨st1, mq⟩ := r
      rw [hm] at h
      cases mq with
      | some m =>
        dsimp only [Option.map] at h
        cases h
        exact ⟨FileResult.binMesh m, rfl⟩
      | none =>
        dsimp only [Option.map] at h
        cases h
        exact ⟨FileResult.binSkipped, rfl⟩
  · intro s1 m1 s2 m2 h1 h2
    rw [h1] at h2
    have h3 := Option.some.inj h2
    exact ⟨congrArg Prod.fst h3, congrArg Prod.snd h3⟩

/-- Claim C8 witness: the 84-zero-byte binary file processed twice. -/
theorem decode_idempotent_instance :
    ∃ r, [FileResult.binMesh (⟨[], []⟩ : IndexedMesh Vec3),
          FileResult.binMesh (⟨[], []⟩ : IndexedMesh Vec3)] = [r, r] :=
  (decode_idempotent ("a.stl") (List.replicate 84 0) (by decide)).1
    [FileResult.binMesh ⟨[], []⟩, FileResult.binMesh ⟨[], []⟩] (by decide)

/-- Claim C9 counterexample: `meshBinaryAdder` opens its file with a bare
`open` and never calls `close`, so its handle trace has an unmatched open
on every path — the claim that every opener closes on all exit paths is
false for the binary decoder. -/
theorem handle_close_cex :
    closesOpened (meshBinaryAdder_trace ("a.stl") (List.replicate 84 0)) = false := by
  decide

/-- Claim C9 amended: the sniffer and the ASCII decoder close their handle
on every exit path (scoped `with` blocks, the extension check preceding
the open); the binary decoder instead leaves exactly one unmatched open on
every path. -/
theorem handle_close_amended :
    (∀ (name : String) (contents : List Nat),
      closesOpened (is_binary_trace name contents) = true) ∧
    (∀ (name : String) (lines : List String),
      closesOpened (meshAdder_trace name lines) = true) ∧
    (∀ (name : String) (data : List Nat),
      meshBinaryAdder_trace name data = [FEvent.opened]) := by
  refine ⟨?_, ?_, ?_⟩
  · intro name contents
    unfold is_binary_trace
    split_ifs <;> rfl
  · intro name lines
    unfold meshAdder_trace
    split_ifs <;> rfl
  · intro name data
    rfl

/-- Claim C10: whenever the ASCII path finishes a file, the number of
triangles in the combined mesh equals the number of lines containing
`endloop`, however many vertex lines preceded each; in particular an
`endloop` preceded by a single vertex line still emits the unguarded face
`(0, 1, 2)`. -/
theorem endloop_count :
    (∀ (name : String) (lines : List String) (m : IndexedMesh VecQ),
      meshAdder name lines = AsciiOut.mesh m →
      m.triangleBuffer.length = lines.countP (fun l => strContains l ("endloop"))) ∧
    meshAdder ("a.stl") ["vertex 1 2 3", "endloop"] =
      AsciiOut.mesh ⟨[((1 : ℚ), (2 : ℚ), (3 : ℚ))], [(0, 1, 2)]⟩ := by
  constructor
  · intro name lines m h
    unfold meshAdder at h
    by_cases hx : extOf name ≠ "stl"
    · rw [if_pos hx] at h
      exact AsciiOut.noConfusion h
    · rw [if_neg hx] at h
      cases hml : meshAdderLoop lines emptyMesh emptyMesh with
      | none =>
        rw [hml] at h
        exact AsciiOut.noConfusion h
      | some M =>
        rw [hml] at h
        dsimp only at h
        cases h
        have hcount := meshAdderLoop_count lines emptyMesh emptyMesh _ rfl hml
        simpa [emptyMesh] using hcount
  · decide

/-- Claim C10 witness: the degenerate one-vertex file still counts one
triangle per `endloop` line. -/
theorem endloop_count_instance :
    (⟨[((1 : ℚ), (2 : ℚ), (3 : ℚ))], [(0, 1, 2)]⟩ :
        IndexedMesh VecQ).triangleBuffer.length =
      (["vertex 1 2 3", "endloop"] : List String).countP
        (fun l => strContains l ("endloop")) :=
  endloop_count.1 ("a.stl") ["vertex 1 2 3", "endloop"] _ endloop_count.2

end RhinoLoadSTL
